import Mathlib

/-!
# Shallow embedding of `mg_solve` (src/include/multigrid/mg_solver.h)

This file embeds the multigrid solver driver `mg_solve` of the hpbox
repository (file `src/include/multigrid/mg_solver.h`) in Lean 4 and proves
properties of it.

Modelling choices:

* C++ `double` values that carry eigenvalue estimates or timer durations are
  modelled as exact rationals; a `double` that may hold the
  `numbers::signaling_nan<double>()` sentinel is modelled as `EDouble :=
  Option ℚ`, with `none` standing for NaN.  IEEE comparison semantics against
  NaN (every `<` comparison involving NaN is false) is captured by `fpLt`.
* The eigenvalue estimation performed by
  `PreconditionChebyshev::estimate_eigenvalues` is external to the repository;
  its outcome is an oracle `est : ℕ → ℚ × ℚ` giving the (min, max) estimate
  that the call returns on each level.
* The side effects of `mg_solve` that the specification talks about
  (operator applications, vector allocations, eigenvalue estimations,
  smoother initialization, coarse-solver construction, running the outer
  solve, writing the table) are recorded in an event trace, in the order the
  source performs them.  A fatal `AssertThrow` is an `Except.error`; the
  trace accumulated up to the abort is returned with it.
* The per-level timers driven by the `create_mg_timer_function` callbacks
  are modelled as a state machine (`mgTimerStep` / `runTimers`) over
  timestamps in nanoseconds; the cycle engine's start/stop signal firings
  are an input event list.
-/

/-- A C++ `double` that may hold the signaling-NaN sentinel:
`none` is NaN, `some q` an ordinary value. -/
def EDouble : Type := Option ℚ

instance : DecidableEq EDouble := by unfold EDouble; infer_instance
instance : Repr EDouble := by unfold EDouble; infer_instance
instance : Inhabited EDouble := ⟨none⟩

/-- IEEE `<` on doubles restricted to our model: any comparison involving
NaN is false. -/
def fpLt : EDouble → EDouble → Bool
  | _, none => false
  | none, some _ => false
  | some a, some b => decide (a < b)

/-- Behaviour of `*std::max_element(first, last)` on a range of doubles: iterate keeping
the first element that no later element exceeds (`operator<`).  The C++
call dereferences `last` on an empty range (undefined behaviour); the model
returns NaN there. -/
def maxElement : List EDouble → EDouble
  | [] => none
  | x :: xs => xs.foldl (fun a y => if fpLt a y then y else a) x

/-- The `mg_data.smoother` parameters read by `mg_solve`. -/
structure SmootherParams where
  type : String
  smoothing_range : ℚ
  degree : ℕ
  eig_cg_n_iterations : ℕ
deriving Repr, DecidableEq

/-- The `mg_data.coarse_solver` parameters read by `mg_solve`. -/
structure CoarseSolverParams where
  type : String
  maxiter : ℕ
  abstol : ℚ
  reltol : ℚ
  smoother_sweeps : ℕ
  n_cycles : ℕ
  smoother_type : String
deriving Repr, DecidableEq

/-- The `MGSolverParameters` fields read by `mg_solve`. -/
structure MGSolverParameters where
  smoother : SmootherParams
  coarse_solver : CoarseSolverParams
  estimate_eigenvalues : Bool
  log_levels : Bool
deriving Repr, DecidableEq

/-- The `PreconditionChebyshev::AdditionalData` as filled by `mg_solve`:
`preconditioner` stores which level's smoother preconditioner was attached
(`none` before assignment), `max_eigenvalue` is `none` while unset. -/
structure ChebyshevAdditionalData where
  preconditioner : Option ℕ := none
  smoothing_range : ℚ := 0
  degree : ℕ := 0
  eig_cg_n_iterations : ℕ := 0
  max_eigenvalue : EDouble := none
deriving Repr, DecidableEq, Inhabited

/-- Which coarse-grid solver strategy `mg_solve` constructed. -/
inductive CoarseStrategy where
  | cgIdentity   -- "cg": CG with identity preconditioner
  | cgChebyshev  -- "cg_with_chebyshev": CG with Chebyshev preconditioner
  | cgAMG        -- "cg_with_amg": CG with Trilinos AMG preconditioner
deriving Repr, DecidableEq, Inhabited

/-- Observable side effects of `mg_solve`, in program order. -/
inductive Event where
  | chebInit (level : ℕ)       -- `chebyshev.initialize(*mg_matrices[level], …)`
  | vecAlloc (level : ℕ)       -- `mg_matrices[level]->initialize_dof_vector(vec)`
  | eigEstimate (level : ℕ)    -- `chebyshev.estimate_eigenvalues(vec)` (operator applications)
  | logMaxEv (v : EDouble)     -- `getPCOut() << "   Max EV …"` and `getTable().add_value("max_ev", max)`
  | smootherInit               -- `mg_smoother.initialize(mg_matrices, smoother_data)`
  | diagExtract (level : ℕ)    -- `mg_matrices[min_level]->compute_inverse_diagonal(…)`
  | amgInit (level : ℕ)        -- `precondition_amg.initialize(…->get_system_matrix(), amg_data)`
  | coarseConstructed (s : CoarseStrategy)  -- `mg_coarse = std::make_unique<…>(…)`
  | mgCycleRun                 -- `SolverCG(solver_control).solve(fine_matrix, dst, src, preconditioner)`
  | tableWritten               -- `table.write_text(mg_level_stream)`
deriving Repr, DecidableEq

/-- The only fatal error `mg_solve` raises: `AssertThrow(…, ExcNotImplemented())`. -/
inductive MGError where
  | notImplemented
deriving Repr, DecidableEq

/-- One firing of a connected timer callback: stage slot `i`, the `flag`
and `level` arguments of the signal, and the value of
`std::chrono::system_clock::now()` at that moment (nanoseconds). -/
structure TimerEvent where
  i : Fin 7
  flag : Bool
  level : ℕ
  now : ℚ
deriving Repr, DecidableEq

/-- The per-(level, stage) timer cells: `(accumulated seconds, start timestamp)`,
mirroring `std::pair<double, time_point>`. -/
def TimerState : Type := ℕ → Fin 7 → ℚ × ℚ

/-- All cells value-initialized, as by `all_mg_timers[i].resize(7)`. -/
def initTimers : TimerState := fun _ _ => (0, 0)

/-- The body of the lambda returned by `create_mg_timer_function(i, label)`:
on `flag` store `now` as the start timestamp, otherwise add the elapsed
nanoseconds divided by `1e9` to the accumulator. -/
def mgTimerStep (s : TimerState) (e : TimerEvent) : TimerState :=
  fun l i =>
    if l = e.level ∧ i = e.i then
      if e.flag then ((s l i).1, e.now)
      else ((s l i).1 + (e.now - (s l i).2) / 1000000000, (s l i).2)
    else s l i

/-- Process a sequence of timer callback firings. -/
def runTimers (s : TimerState) (evs : List TimerEvent) : TimerState :=
  evs.foldl mgTimerStep s

/-- The `all_mg_timers` storage as allocated by `mg_solve`: an outer vector of size
`max_level - min_level + 1`, each entry resized to 7 value-initialized pairs. -/
def allMgTimersInit (minL maxL : ℕ) : List (List (ℚ × ℚ)) :=
  List.replicate (maxL - minL + 1) (List.replicate 7 ((0 : ℚ), (0 : ℚ)))

/-- The timer callbacks access `all_mg_timers[level][i]`; the access is in
bounds iff `level` is below the outer size and `i` below 7. -/
def timerAccessInBounds (minL maxL level i : ℕ) : Prop :=
  level < (allMgTimersInit minL maxL).length ∧ i < 7

instance (minL maxL level i : ℕ) : Decidable (timerAccessInBounds minL maxL level i) := by
  unfold timerAccessInBounds; infer_instance

/-- One row of the per-level diagnostics `ConvergenceTable`; the eigenvalue
columns are present (`some _`) only when `estimate_eigenvalues` is true. -/
structure TableRow where
  level : ℕ
  pre_smoother_step : ℚ
  residual_step : ℚ
  restriction : ℚ
  coarse_solve : ℚ
  prolongation : ℚ
  edge_prolongation : ℚ
  post_smoother_step : ℚ
  min_eigenvalue : Option EDouble
  max_eigenvalue : Option EDouble
deriving Repr, DecidableEq, Inhabited

/-- The table-building loop of `mg_solve` (lines 259–274): one row per
index `level = 0 .. all_mg_timers.size() - 1`, reading the timers at that
index and `min_eigenvalues[level]` / `max_eigenvalues[level]`. -/
def buildTable (n : ℕ) (T : TimerState) (minEv maxEv : List EDouble)
    (estimate : Bool) : List TableRow :=
  (List.range n).map fun level =>
    { level := level
      pre_smoother_step := (T level 0).1
      residual_step := (T level 1).1
      restriction := (T level 2).1
      coarse_solve := (T level 3).1
      prolongation := (T level 4).1
      edge_prolongation := (T level 5).1
      post_smoother_step := (T level 6).1
      min_eigenvalue := if estimate then some (minEv.getD level none) else none
      max_eigenvalue := if estimate then some (maxEv.getD level none) else none }

/-- The eigenvalue-estimation loop's writes to a `std::vector<double>`:
for each `level` in `min_level+1 .. max_level` (in order), set index
`level` to the estimate `f level`. -/
def evWriteLoop (f : ℕ → ℚ) (minL maxL : ℕ) (init : List EDouble) : List EDouble :=
  (List.range' (minL + 1) (maxL - minL)).foldl
    (fun acc level => acc.set level (some (f level))) init

/-- Events emitted by the eigenvalue-estimation loop, in order: per level
`min_level+1 .. max_level` a Chebyshev initialization, a level-vector
allocation, and the estimation itself. -/
def estEvents (minL maxL : ℕ) : List Event :=
  (List.range' (minL + 1) (maxL - minL)).flatMap
    fun level => [Event.chebInit level, Event.vecAlloc level, Event.eigEstimate level]

/-- One iteration's update of `smoother_data[level]` after estimating on
`level` (lines 117–118): `eig_cg_n_iterations = 0` and
`max_eigenvalue = evs.max_eigenvalue_estimate * 1.1`. -/
def smootherUpdStep (est : ℕ → ℚ × ℚ) (acc : ℕ → ChebyshevAdditionalData)
    (level : ℕ) : ℕ → ChebyshevAdditionalData := fun l =>
  if l = level then
    { acc l with eig_cg_n_iterations := 0,
                 max_eigenvalue := some ((est level).2 * (11 / 10)) }
  else acc l

/-- The smoother configurations after the estimation loop: for estimated
levels, `eig_cg_n_iterations` is reset to 0 and `max_eigenvalue` set to
1.1 times the estimated maximum. -/
def smootherDataAfterEst (sd : ℕ → ChebyshevAdditionalData) (est : ℕ → ℚ × ℚ)
    (minL maxL : ℕ) : ℕ → ChebyshevAdditionalData :=
  (List.range' (minL + 1) (maxL - minL)).foldl (smootherUpdStep est) sd

/-- The `smoother_data` contents after the initialization loop of
`mg_solve` (lines 88–94), before any eigenvalue estimation. -/
def mgSd0 (p : MGSolverParameters) : ℕ → ChebyshevAdditionalData := fun level =>
  { preconditioner := some level
    smoothing_range := p.smoother.smoothing_range
    degree := p.smoother.degree
    eig_cg_n_iterations := p.smoother.eig_cg_n_iterations
    max_eigenvalue := none }

/-- The `min_eigenvalues` vector at the end of `mg_solve`: size
`max_level + 1`, all NaN, overwritten on levels `min_level+1 .. max_level`
when estimation is enabled. -/
def mgMinEv (p : MGSolverParameters) (minL maxL : ℕ) (est : ℕ → ℚ × ℚ) :
    List EDouble :=
  if p.estimate_eigenvalues then
    evWriteLoop (fun l => (est l).1) minL maxL (List.replicate (maxL + 1) none)
  else List.replicate (maxL + 1) none

/-- The `max_eigenvalues` vector at the end of `mg_solve`. -/
def mgMaxEv (p : MGSolverParameters) (minL maxL : ℕ) (est : ℕ → ℚ × ℚ) :
    List EDouble :=
  if p.estimate_eigenvalues then
    evWriteLoop (fun l => (est l).2) minL maxL (List.replicate (maxL + 1) none)
  else List.replicate (maxL + 1) none

/-- The `smoother_data` passed to `mg_smoother.initialize`. -/
def mgSmootherData (p : MGSolverParameters) (minL maxL : ℕ) (est : ℕ → ℚ × ℚ) :
    ℕ → ChebyshevAdditionalData :=
  if p.estimate_eigenvalues then smootherDataAfterEst (mgSd0 p) est minL maxL
  else mgSd0 p

/-- The `"max_ev"` value logged when estimation is enabled:
`*std::max_element(++(max_eigenvalues.begin()), max_eigenvalues.end())`. -/
def mgLoggedMaxEv (p : MGSolverParameters) (minL maxL : ℕ) (est : ℕ → ℚ × ℚ) :
    Option EDouble :=
  if p.estimate_eigenvalues then
    some (maxElement ((mgMaxEv p minL maxL est).drop 1))
  else none

/-- Trace of the eigenvalue-estimation section (lines 102–125). -/
def mgEstTrace (p : MGSolverParameters) (minL maxL : ℕ) (est : ℕ → ℚ × ℚ) :
    List Event :=
  if p.estimate_eigenvalues then
    estEvents minL maxL ++
      [Event.logMaxEv (maxElement ((mgMaxEv p minL maxL est).drop 1))]
  else []

/-- Coarse-grid solver selection (lines 149–206): the side effects of the
chosen branch and the constructed strategy, or the fatal
`AssertThrow(false, ExcNotImplemented())`. -/
def coarseSelect (p : MGSolverParameters) (minL : ℕ) (withTrilinos : Bool) :
    Except MGError (List Event × CoarseStrategy) :=
  if p.coarse_solver.type = "cg" then
    Except.ok ([Event.coarseConstructed CoarseStrategy.cgIdentity],
               CoarseStrategy.cgIdentity)
  else if p.coarse_solver.type = "cg_with_chebyshev" then
    Except.ok ([Event.diagExtract minL,
                Event.coarseConstructed CoarseStrategy.cgChebyshev],
               CoarseStrategy.cgChebyshev)
  else if p.coarse_solver.type = "cg_with_amg" then
    if withTrilinos then
      Except.ok ([Event.amgInit minL,
                  Event.coarseConstructed CoarseStrategy.cgAMG],
                 CoarseStrategy.cgAMG)
    else Except.error MGError.notImplemented
  else Except.error MGError.notImplemented

/-- Result of a completed `mg_solve` call. -/
structure MGResult where
  /-- The `min_eigenvalues` vector (size `max_level + 1`) at the end of the call. -/
  minEigenvalues : List EDouble
  /-- The `max_eigenvalues` vector (size `max_level + 1`) at the end of the call. -/
  maxEigenvalues : List EDouble
  /-- The value logged to `getPCOut()` / recorded under `"max_ev"`, when
  eigenvalue estimation ran. -/
  loggedMaxEv : Option EDouble
  /-- The per-level `AdditionalData` passed to `mg_smoother.initialize`. -/
  smootherData : ℕ → ChebyshevAdditionalData
  /-- Which coarse-grid strategy was constructed. -/
  coarse : CoarseStrategy
  /-- Whether the timer callbacks were connected to the `Multigrid` signals. -/
  timersConnected : Bool
  /-- Final state of `all_mg_timers` after the outer solve. -/
  timersFinal : TimerState
  /-- The diagnostics table, built and written only on rank 0 with
  `log_levels` enabled. -/
  table : Option (List TableRow)

/-- Shallow embedding of `mg_solve`.  Inputs beyond the configuration:
`minL`/`maxL` are `mg_matrices.min_level()`/`max_level()`; `est` is the
oracle for `estimate_eigenvalues` outcomes per level; `withTrilinos` is the
`DEAL_II_WITH_TRILINOS` build flag; `rank` is
`Utilities::MPI::this_mpi_process`; `tev` is the sequence of timer-signal
firings the cycle engine produces during the outer solve.  Returns the
event trace together with the result or the fatal error. -/
def mgSolve (p : MGSolverParameters) (minL maxL : ℕ) (est : ℕ → ℚ × ℚ)
    (withTrilinos : Bool) (rank : ℕ) (tev : List TimerEvent) :
    List Event × Except MGError MGResult :=
  -- AssertThrow(mg_data.smoother.type == "chebyshev", ExcNotImplemented());
  if p.smoother.type ≠ "chebyshev" then ([], Except.error MGError.notImplemented)
  else
    let trace₁ := mgEstTrace p minL maxL est ++ [Event.smootherInit]
    match coarseSelect p minL withTrilinos with
    | Except.error e => (trace₁, Except.error e)
    | Except.ok (cevs, coarse) =>
      -- timers are connected only under `if (mg_data.log_levels == true)`
      let timersFinal := if p.log_levels then runTimers initTimers tev else initTimers
      let table : Option (List TableRow) :=
        if p.log_levels ∧ rank = 0 then
          some (buildTable (maxL - minL + 1) timersFinal
                  (mgMinEv p minL maxL est) (mgMaxEv p minL maxL est)
                  p.estimate_eigenvalues)
        else none
      let trace₂ := trace₁ ++ cevs ++ [Event.mgCycleRun] ++
        (if p.log_levels ∧ rank = 0 then [Event.tableWritten] else [])
      (trace₂,
       Except.ok
         { minEigenvalues := mgMinEv p minL maxL est
           maxEigenvalues := mgMaxEv p minL maxL est
           loggedMaxEv := mgLoggedMaxEv p minL maxL est
           smootherData := mgSmootherData p minL maxL est
           coarse := coarse
           timersConnected := p.log_levels
           timersFinal := timersFinal
           table := table })

/-! ## Characterization lemmas for the embedded phases -/

theorem foldl_set_length (g : ℕ → EDouble) (l : List ℕ) (init : List EDouble) :
    (l.foldl (fun acc i => acc.set i (g i)) init).length = init.length := by
  induction l generalizing init with
  | nil => rfl
  | cons a t ih => simp [List.foldl_cons, ih, List.length_set]

theorem foldl_set_get? (g : ℕ → EDouble) (l : List ℕ) (init : List EDouble) (k : ℕ) :
    ((l.foldl (fun acc i => acc.set i (g i)) init).get? k) =
      if k ∈ l ∧ k < init.length then some (g k) else init.get? k := by
  induction l generalizing init with
  | nil => simp
  | cons a t ih =>
    rw [List.foldl_cons, ih]
    simp only [List.length_set, List.mem_cons]
    by_cases h1 : k < init.length
    · by_cases h2 : k ∈ t
      · simp [h1, h2]
      · simp only [h2, and_false, false_and, if_false, and_true, h1]
        by_cases h3 : k = a
        · subst h3
          rw [List.get?_set_eq]
          cases hi : init.get? k with
          | none => exact absurd (List.get?_eq_none.mp hi) (by omega)
          | some x => simp
        · rw [List.get?_set_ne _ _ (fun h => h3 h.symm)]
          simp [h3]
    · have hnone : ∀ m : List EDouble, m.length = init.length → m.get? k = none :=
        fun m hm => List.get?_eq_none.mpr (by omega)
      rw [hnone _ (List.length_set ..), hnone _ rfl]
      simp [h1]

theorem evWriteLoop_length (f : ℕ → ℚ) (minL maxL : ℕ) (init : List EDouble) :
    (evWriteLoop f minL maxL init).length = init.length :=
  foldl_set_length _ _ _

theorem evWriteLoop_get? (f : ℕ → ℚ) (minL maxL k : ℕ) (hk : k ≤ maxL) :
    (evWriteLoop f minL maxL (List.replicate (maxL + 1) (none : EDouble))).get? k =
      some (if minL + 1 ≤ k ∧ k ≤ maxL then some (f k) else none) := by
  unfold evWriteLoop
  rw [foldl_set_get?]
  have hrep : (List.replicate (maxL + 1) (none : EDouble)).get? k = some none := by
    rw [List.get?_eq_getElem?, List.getElem?_replicate, if_pos (by omega)]
  simp only [List.length_replicate, List.mem_range'_1, hrep]
  split_ifs with h1 h2 h3 <;> first | rfl | omega

theorem evWriteLoop_zero_eq (f : ℕ → ℚ) (maxL : ℕ) :
    evWriteLoop f 0 maxL (List.replicate (maxL + 1) (none : EDouble)) =
      none :: (List.range' 1 maxL).map (fun k => some (f k)) := by
  apply List.ext_get?
  intro n
  by_cases hn : n ≤ maxL
  · rw [evWriteLoop_get? f 0 maxL n hn]
    cases n with
    | zero => simp
    | succ m =>
      have hm : m < maxL := by omega
      rw [List.get?_cons_succ, List.get?_map]
      rw [List.get?_eq_getElem?, List.getElem?_range' 1 1 hm]
      rw [if_pos (show 0 + 1 ≤ m + 1 ∧ m + 1 ≤ maxL by omega)]
      have h11 : 1 + 1 * m = m + 1 := by ring
      simp [h11, Nat.add_comm 1 m]
  · have h1 : (evWriteLoop f 0 maxL (List.replicate (maxL + 1) none)).get? n = none := by
      apply List.get?_eq_none.mpr
      rw [evWriteLoop_length, List.length_replicate]; omega
    have h2 : ((none : EDouble) :: (List.range' 1 maxL).map (fun k => some (f k))).get? n
        = none := by
      apply List.get?_eq_none.mpr
      simp; omega
    rw [h1, h2]

/-- The update step of `std::max_element` on ordinary (non-NaN) doubles. -/
def qmax (x y : ℚ) : ℚ := if x < y then y else x

theorem foldl_fpmax_map_some (a : ℚ) (l : List ℚ) :
    (l.map some).foldl (fun x y => if fpLt x y then y else x) (some a) =
      some (l.foldl qmax a) := by
  induction l generalizing a with
  | nil => rfl
  | cons b t ih =>
    simp only [List.map_cons, List.foldl_cons]
    by_cases h : a < b
    · rw [show (if fpLt (some a) (some b) then (some b : EDouble) else some a) = some b by
        simp [fpLt, h]]
      rw [show qmax a b = b by simp [qmax, h]]
      exact ih b
    · rw [show (if fpLt (some a) (some b) then (some b : EDouble) else some a) = some a by
        simp [fpLt, h]]
      rw [show qmax a b = a by simp [qmax, h]]
      exact ih a

theorem le_foldl_qmax (a : ℚ) (l : List ℚ) : a ≤ l.foldl qmax a := by
  induction l generalizing a with
  | nil => exact le_refl a
  | cons b t ih =>
    refine le_trans ?_ (ih (qmax a b))
    unfold qmax; split_ifs with h
    · exact le_of_lt h
    · exact le_refl a

theorem mem_le_foldl_qmax (a x : ℚ) (l : List ℚ) (hx : x ∈ l) :
    x ≤ l.foldl qmax a := by
  induction l generalizing a with
  | nil => cases hx
  | cons b t ih =>
    rcases List.mem_cons.mp hx with h | h
    · subst h
      refine le_trans ?_ (le_foldl_qmax (qmax a x) t)
      unfold qmax; split_ifs with h
      · exact le_refl x
      · exact le_of_not_lt h
    · exact ih _ h

theorem foldl_qmax_mem (a : ℚ) (l : List ℚ) : l.foldl qmax a = a ∨ l.foldl qmax a ∈ l := by
  induction l generalizing a with
  | nil => exact Or.inl rfl
  | cons b t ih =>
    rw [List.foldl_cons]
    rcases ih (qmax a b) with h | h
    · rw [h]; unfold qmax; split_ifs with hab
      · exact Or.inr (List.mem_cons_self _ _)
      · exact Or.inl rfl
    · exact Or.inr (List.mem_cons_of_mem _ h)

theorem maxElement_cons_map_some (k : ℚ) (ks : List ℚ) :
    maxElement ((k :: ks).map some) = some (ks.foldl qmax k) := by
  simp only [List.map_cons, maxElement]
  exact foldl_fpmax_map_some k ks

/-- Since `fpLt` never accepts a NaN on the left, `max_element` starting at a
NaN returns NaN regardless of the rest of the range. -/
theorem maxElement_nan_head (xs : List EDouble) : maxElement (none :: xs) = none := by
  simp only [maxElement]
  induction xs with
  | nil => rfl
  | cons y t ih =>
    rw [List.foldl_cons, show (if fpLt none y then y else none) = none by
      cases y <;> simp [fpLt]]
    exact ih

theorem smootherUpd_foldl_apply (est : ℕ → ℚ × ℚ) (a n L : ℕ)
    (sd : ℕ → ChebyshevAdditionalData) :
    ((List.range' a n).foldl (smootherUpdStep est) sd) L =
      if a ≤ L ∧ L < a + n then
        { sd L with eig_cg_n_iterations := 0,
                    max_eigenvalue := some ((est L).2 * (11 / 10)) }
      else sd L := by
  induction n generalizing a sd with
  | zero => simp only [List.range'_zero, List.foldl_nil]; rw [if_neg (by omega)]
  | succ m ih =>
    rw [List.range'_succ, List.foldl_cons, ih]
    have hstep : ∀ l, smootherUpdStep est sd a l =
        if l = a then
          { sd l with eig_cg_n_iterations := 0,
                      max_eigenvalue := some ((est a).2 * (11 / 10)) }
        else sd l := fun l => rfl
    split_ifs with h1 h2 h2
    · rw [hstep, if_neg (by omega)]
    · omega
    · have hLa : L = a := by omega
      subst hLa
      rw [hstep, if_pos rfl]
    · rw [hstep, if_neg (by omega)]

theorem smootherDataAfterEst_apply (sd : ℕ → ChebyshevAdditionalData)
    (est : ℕ → ℚ × ℚ) (minL maxL L : ℕ) :
    smootherDataAfterEst sd est minL maxL L =
      if minL + 1 ≤ L ∧ L ≤ maxL then
        { sd L with eig_cg_n_iterations := 0,
                    max_eigenvalue := some ((est L).2 * (11 / 10)) }
      else sd L := by
  unfold smootherDataAfterEst
  rw [smootherUpd_foldl_apply]
  split_ifs with h1 h2 h2 <;> first | rfl | omega

theorem count_eigEstimate_flatMap (a n L : ℕ) :
    ((List.range' a n).flatMap
        (fun level => [Event.chebInit level, Event.vecAlloc level,
                       Event.eigEstimate level])).count (Event.eigEstimate L) =
      if a ≤ L ∧ L < a + n then 1 else 0 := by
  induction n generalizing a with
  | zero =>
    simp only [List.range'_zero, List.flatMap_nil, List.count_nil]
    rw [if_neg (by omega)]
  | succ m ih =>
    rw [List.range'_succ, List.flatMap_cons, List.count_append, ih]
    simp only [List.count_cons, List.count_nil, beq_iff_eq]
    have h1 : (Event.chebInit a = Event.eigEstimate L) = False := by
      simp
    have h2 : (Event.vecAlloc a = Event.eigEstimate L) = False := by
      simp
    simp only [h1, h2, if_false, Event.eigEstimate.injEq]
    split_ifs with hc1 hc2 hc2 <;> omega

theorem count_eigEstimate_estEvents (minL maxL L : ℕ) :
    (estEvents minL maxL).count (Event.eigEstimate L) =
      if minL + 1 ≤ L ∧ L ≤ maxL then 1 else 0 := by
  unfold estEvents
  rw [count_eigEstimate_flatMap]
  split_ifs with h1 h2 h2 <;> first | rfl | omega

/-! ## Structural lemmas about `mgSolve` -/

theorem mgSolve_snd_ok (p : MGSolverParameters) (minL maxL : ℕ) (est : ℕ → ℚ × ℚ)
    (wt : Bool) (rank : ℕ) (tev : List TimerEvent) (r : MGResult)
    (hok : (mgSolve p minL maxL est wt rank tev).2 = Except.ok r) :
    p.smoother.type = "chebyshev" ∧
    r.minEigenvalues = mgMinEv p minL maxL est ∧
    r.maxEigenvalues = mgMaxEv p minL maxL est ∧
    r.loggedMaxEv = mgLoggedMaxEv p minL maxL est ∧
    r.smootherData = mgSmootherData p minL maxL est ∧
    r.timersConnected = p.log_levels ∧
    r.timersFinal = (if p.log_levels then runTimers initTimers tev else initTimers) ∧
    r.table = (if p.log_levels ∧ rank = 0 then
        some (buildTable (maxL - minL + 1)
          (if p.log_levels then runTimers initTimers tev else initTimers)
          (mgMinEv p minL maxL est) (mgMaxEv p minL maxL est)
          p.estimate_eigenvalues)
      else none) := by
  unfold mgSolve at hok
  split at hok
  · exact absurd hok (by simp)
  · rename_i hcheb
    split at hok
    · exact absurd hok (by simp)
    · rename_i cevs coarse heq
      simp only at hok
      rw [Except.ok.injEq] at hok
      subst hok
      refine ⟨by simpa using hcheb, rfl, rfl, rfl, rfl, rfl, rfl, rfl⟩

theorem mgSolve_fst (p : MGSolverParameters) (minL maxL : ℕ) (est : ℕ → ℚ × ℚ)
    (wt : Bool) (rank : ℕ) (tev : List TimerEvent)
    (hs : p.smoother.type = "chebyshev") :
    (mgSolve p minL maxL est wt rank tev).1 =
      mgEstTrace p minL maxL est ++ [Event.smootherInit] ++
      (match coarseSelect p minL wt with
       | Except.error _ => []
       | Except.ok (cevs, _) =>
           cevs ++ [Event.mgCycleRun] ++
             (if p.log_levels ∧ rank = 0 then [Event.tableWritten] else [])) := by
  unfold mgSolve
  rw [if_neg (by simp [hs])]
  cases hcs : coarseSelect p minL wt with
  | error e => simp
  | ok pr =>
    cases pr with
    | mk cevs coarse => simp [List.append_assoc]

theorem coarseSelect_ok_no_eig (p : MGSolverParameters) (minL : ℕ) (wt : Bool)
    (cevs : List Event) (s : CoarseStrategy)
    (h : coarseSelect p minL wt = Except.ok (cevs, s)) (L : ℕ) :
    Event.eigEstimate L ∉ cevs := by
  unfold coarseSelect at h
  split_ifs at h <;>
    simp only [Except.ok.injEq, Prod.mk.injEq] at h <;>
    rcases h with ⟨hc, _⟩ <;> subst hc <;> simp

/-- Occurrences of `eigEstimate L` in the full trace all come from the
eigenvalue-estimation section. -/
theorem mgSolve_count_eigEstimate (p : MGSolverParameters) (minL maxL : ℕ)
    (est : ℕ → ℚ × ℚ) (wt : Bool) (rank : ℕ) (tev : List TimerEvent)
    (hs : p.smoother.type = "chebyshev") (L : ℕ) :
    (mgSolve p minL maxL est wt rank tev).1.count (Event.eigEstimate L) =
      (if p.estimate_eigenvalues then 1 else 0) *
        (if minL + 1 ≤ L ∧ L ≤ maxL then 1 else 0) := by
  rw [mgSolve_fst p minL maxL est wt rank tev hs]
  rw [List.count_append, List.count_append]
  have h1 : (mgEstTrace p minL maxL est).count (Event.eigEstimate L) =
      (if p.estimate_eigenvalues then 1 else 0) *
        (if minL + 1 ≤ L ∧ L ≤ maxL then 1 else 0) := by
    unfold mgEstTrace
    by_cases he : p.estimate_eigenvalues
    · rw [if_pos he, if_pos he, List.count_append, count_eigEstimate_estEvents]
      simp
    · rw [if_neg he, if_neg he]
      simp
  have h2 : List.count (Event.eigEstimate L) [Event.smootherInit] = 0 := by simp
  have h3 : (match coarseSelect p minL wt with
       | Except.error _ => ([] : List Event)
       | Except.ok (cevs, _) =>
           cevs ++ [Event.mgCycleRun] ++
             (if p.log_levels ∧ rank = 0 then [Event.tableWritten] else
               [])).count (Event.eigEstimate L) = 0 := by
    cases hcs : coarseSelect p minL wt with
    | error e => simp
    | ok pr =>
      cases pr with
      | mk cevs s =>
        simp only [List.count_append]
        have hc : cevs.count (Event.eigEstimate L) = 0 :=
          List.count_eq_zero.mpr (coarseSelect_ok_no_eig p minL wt cevs s hcs L)
        rw [hc]
        split_ifs <;> simp
  rw [h1, h2, h3]
  simp

/-! ## Timer state machine lemmas -/

/-- All stored start timestamps of a timer state are at most `t`. -/
def startsLE (s : TimerState) (t : ℚ) : Prop := ∀ l i, (s l i).2 ≤ t

theorem mgTimerStep_acc_mono (s : TimerState) (e : TimerEvent)
    (h : startsLE s e.now) (l : ℕ) (i : Fin 7) :
    (s l i).1 ≤ (mgTimerStep s e l i).1 := by
  unfold mgTimerStep
  split_ifs with h1 h2
  · exact le_refl _
  · have hle := h l i
    have hq : (0 : ℚ) ≤ (e.now - (s l i).2) / 1000000000 := by
      apply div_nonneg (by linarith) (by norm_num)
    simp only
    linarith
  · exact le_refl _

theorem mgTimerStep_startsLE (s : TimerState) (e : TimerEvent) (t : ℚ)
    (hs : startsLE s t) (he : e.now ≤ t) : startsLE (mgTimerStep s e) t := by
  intro l i
  unfold mgTimerStep
  split_ifs with h1 h2
  · exact he
  · exact hs l i
  · exact hs l i

theorem runTimers_startsLE (evs : List TimerEvent) (s : TimerState) (t : ℚ)
    (hs : startsLE s t) (he : ∀ e ∈ evs, e.now ≤ t) :
    startsLE (runTimers s evs) t := by
  induction evs generalizing s with
  | nil => exact hs
  | cons e rest ih =>
    exact ih (mgTimerStep s e)
      (mgTimerStep_startsLE s e t hs (he e (List.mem_cons_self e rest)))
      (fun e' he' => he e' (List.mem_cons_of_mem e he'))

theorem runTimers_acc_mono (evs : List TimerEvent) (s : TimerState)
    (hs : ∀ e ∈ evs, startsLE s e.now)
    (hp : evs.Pairwise (fun a b => a.now ≤ b.now)) (l : ℕ) (i : Fin 7) :
    (s l i).1 ≤ (runTimers s evs l i).1 := by
  induction evs generalizing s with
  | nil => exact le_refl _
  | cons e rest ih =>
    have h1 : (s l i).1 ≤ (mgTimerStep s e l i).1 :=
      mgTimerStep_acc_mono s e (hs e (List.mem_cons_self e rest)) l i
    have hp' := List.pairwise_cons.mp hp
    have h2 : (mgTimerStep s e l i).1 ≤ (runTimers (mgTimerStep s e) rest l i).1 := by
      apply ih
      · intro e' he'
        exact mgTimerStep_startsLE s e e'.now
          (hs e' (List.mem_cons_of_mem e he')) (hp'.1 e' he')
      · exact hp'.2
    exact le_trans h1 h2

instance : Inhabited MGResult :=
  ⟨{ minEigenvalues := [], maxEigenvalues := [], loggedMaxEv := none,
     smootherData := fun _ => default, coarse := CoarseStrategy.cgIdentity,
     timersConnected := false, timersFinal := initTimers, table := none }⟩

/-- Extract the payload of a successful result (used to build concrete
witnesses). -/
def getOk {ε α : Type _} [Inhabited α] : Except ε α → α
  | Except.ok a => a
  | Except.error _ => default

/-! ## Concrete fixtures for witnesses and counterexamples -/

/-- A configuration fixture: coarse-solver type, smoother type, estimation
and logging flags; the numeric parameters are arbitrary. -/
def cfg (ctype sm : String) (estim lg : Bool) : MGSolverParameters :=
  { smoother := { type := sm, smoothing_range := 20, degree := 3,
                  eig_cg_n_iterations := 10 }
    coarse_solver := { type := ctype, maxiter := 100, abstol := 1 / 1000,
                       reltol := 1 / 100, smoother_sweeps := 1, n_cycles := 1,
                       smoother_type := "ILU" }
    estimate_eigenvalues := estim
    log_levels := lg }

/-- An eigenvalue-estimation oracle fixture (literal values so that proofs
can evaluate it by reduction). -/
def estEx : ℕ → ℚ × ℚ
  | 0 => (1, 2)
  | 1 => (1, 3)
  | 2 => (2, 5)
  | _ + 3 => (3, 7)

/-! ## Membership helpers -/

theorem mem_mgEstTrace (p : MGSolverParameters) (minL maxL : ℕ) (est : ℕ → ℚ × ℚ)
    (e : Event) (he : e ∈ mgEstTrace p minL maxL est) :
    (∃ l, e = Event.chebInit l ∨ e = Event.vecAlloc l ∨ e = Event.eigEstimate l) ∨
    (∃ v, e = Event.logMaxEv v) := by
  unfold mgEstTrace at he
  by_cases hest : p.estimate_eigenvalues
  · rw [if_pos hest, List.mem_append] at he
    rcases he with he | he
    · unfold estEvents at he
      rw [List.mem_flatMap] at he
      obtain ⟨l, _, hl⟩ := he
      simp only [List.mem_cons, List.not_mem_nil, or_false] at hl
      exact Or.inl ⟨l, hl⟩
    · simp only [List.mem_singleton] at he
      exact Or.inr ⟨_, he⟩
  · rw [if_neg hest] at he
    cases he

theorem coarseSelect_ok_events (p : MGSolverParameters) (minL : ℕ) (wt : Bool)
    (cevs : List Event) (s : CoarseStrategy)
    (h : coarseSelect p minL wt = Except.ok (cevs, s)) :
    cevs = [Event.coarseConstructed s] ∨
    cevs = [Event.diagExtract minL, Event.coarseConstructed s] ∨
    cevs = [Event.amgInit minL, Event.coarseConstructed s] := by
  unfold coarseSelect at h
  split_ifs at h <;>
    simp only [Except.ok.injEq, Prod.mk.injEq] at h <;>
    rcases h with ⟨hc, hs⟩ <;> subst hc <;> subst hs
  · exact Or.inl rfl
  · exact Or.inr (Or.inl rfl)
  · exact Or.inr (Or.inr rfl)

theorem mgSolve_ok_trace (p : MGSolverParameters) (minL maxL : ℕ) (est : ℕ → ℚ × ℚ)
    (wt : Bool) (rank : ℕ) (tev : List TimerEvent) (r : MGResult)
    (hok : (mgSolve p minL maxL est wt rank tev).2 = Except.ok r) :
    ∃ cevs s, coarseSelect p minL wt = Except.ok (cevs, s) ∧
      (mgSolve p minL maxL est wt rank tev).1 =
        mgEstTrace p minL maxL est ++ [Event.smootherInit] ++ cevs ++
          [Event.mgCycleRun] ++
          (if p.log_levels ∧ rank = 0 then [Event.tableWritten] else []) := by
  have hcheb : p.smoother.type = "chebyshev" :=
    (mgSolve_snd_ok p minL maxL est wt rank tev r hok).1
  cases hcs : coarseSelect p minL wt with
  | error e =>
    exfalso
    unfold mgSolve at hok
    rw [if_neg (by simp [hcheb])] at hok
    rw [hcs] at hok
    exact absurd hok (by simp)
  | ok pr =>
    cases pr with
    | mk cevs s =>
      refine ⟨cevs, s, rfl, ?_⟩
      unfold mgSolve
      rw [if_neg (by simp [hcheb])]
      rw [hcs]

/-- C6: if `mg_data.smoother.type` is any string other than `"chebyshev"`,
`mg_solve` fails with a fatal error as its first action: the returned trace
is empty — no smoother setup, eigenvalue estimation, coarse-solver
construction, or outer iteration was performed. -/
theorem mg_smoother_type_guard_first (p : MGSolverParameters) (minL maxL : ℕ)
    (est : ℕ → ℚ × ℚ) (wt : Bool) (rank : ℕ) (tev : List TimerEvent)
    (hs : p.smoother.type ≠ "chebyshev") :
    mgSolve p minL maxL est wt rank tev = ([], Except.error MGError.notImplemented) := by
  unfold mgSolve
  rw [if_pos hs]

theorem mg_smoother_type_guard_first_witness :
    (cfg "cg" "jacobi" true true).smoother.type ≠ "chebyshev" ∧
    mgSolve (cfg "cg" "jacobi" true true) 0 2 estEx true 0 [] =
      ([], Except.error MGError.notImplemented) :=
  ⟨by decide, mg_smoother_type_guard_first (cfg "cg" "jacobi" true true) 0 2 estEx
    true 0 [] (by decide)⟩

/-- C7: if `coarse_solver.type` selects the AMG-preconditioned strategy
while `DEAL_II_WITH_TRILINOS` is unavailable, `mg_solve` aborts with the
fatal configuration error and constructs no coarse-grid solver at all — it
never falls back to another strategy. -/
theorem mg_amg_unavailable_fatal (p : MGSolverParameters) (minL maxL : ℕ)
    (est : ℕ → ℚ × ℚ) (rank : ℕ) (tev : List TimerEvent)
    (hs : p.smoother.type = "chebyshev")
    (hc : p.coarse_solver.type = "cg_with_amg") :
    (mgSolve p minL maxL est false rank tev).2 = Except.error MGError.notImplemented ∧
    ∀ s : CoarseStrategy,
      Event.coarseConstructed s ∉ (mgSolve p minL maxL est false rank tev).1 := by
  have hcs : coarseSelect p minL false = Except.error MGError.notImplemented := by
    unfold coarseSelect
    rw [if_neg (by rw [hc]; decide), if_neg (by rw [hc]; decide), if_pos hc]
    rfl
  have hun : mgSolve p minL maxL est false rank tev =
      (mgEstTrace p minL maxL est ++ [Event.smootherInit],
       Except.error MGError.notImplemented) := by
    unfold mgSolve
    rw [if_neg (by simp [hs]), hcs]
  rw [hun]
  refine ⟨rfl, ?_⟩
  intro s hmem
  rw [List.mem_append] at hmem
  rcases hmem with hmem | hmem
  · rcases mem_mgEstTrace p minL maxL est _ hmem with ⟨l, h | h | h⟩ | ⟨v, h⟩ <;>
      exact absurd h (by simp)
  · simp at hmem

theorem mg_amg_unavailable_fatal_witness :
    (cfg "cg_with_amg" "chebyshev" false false).smoother.type = "chebyshev" ∧
    (cfg "cg_with_amg" "chebyshev" false false).coarse_solver.type = "cg_with_amg" ∧
    ((mgSolve (cfg "cg_with_amg" "chebyshev" false false) 0 2 estEx false 0 []).2 =
        Except.error MGError.notImplemented ∧
      ∀ s : CoarseStrategy,
        Event.coarseConstructed s ∉
          (mgSolve (cfg "cg_with_amg" "chebyshev" false false) 0 2 estEx false 0 []).1) :=
  ⟨rfl, rfl, mg_amg_unavailable_fatal (cfg "cg_with_amg" "chebyshev" false false)
    0 2 estEx 0 [] rfl rfl⟩

/-- C2 (amended): for every configuration whose `coarse_solver.type` is not
one of the recognized names, `mg_solve` aborts with a fatal error before the
coarse-grid solver is constructed and before the outer solve or any table
write — but not before eigenvalue estimation (when enabled) and smoother
initialization, which have already been performed when the abort fires. -/
theorem mg_unknown_coarse_aborts (p : MGSolverParameters) (minL maxL : ℕ)
    (est : ℕ → ℚ × ℚ) (wt : Bool) (rank : ℕ) (tev : List TimerEvent)
    (hs : p.smoother.type = "chebyshev")
    (h1 : p.coarse_solver.type ≠ "cg")
    (h2 : p.coarse_solver.type ≠ "cg_with_chebyshev")
    (h3 : p.coarse_solver.type ≠ "cg_with_amg") :
    (mgSolve p minL maxL est wt rank tev).2 = Except.error MGError.notImplemented ∧
    (∀ s : CoarseStrategy,
        Event.coarseConstructed s ∉ (mgSolve p minL maxL est wt rank tev).1) ∧
    Event.mgCycleRun ∉ (mgSolve p minL maxL est wt rank tev).1 ∧
    Event.tableWritten ∉ (mgSolve p minL maxL est wt rank tev).1 ∧
    (∀ l : ℕ, Event.diagExtract l ∉ (mgSolve p minL maxL est wt rank tev).1 ∧
        Event.amgInit l ∉ (mgSolve p minL maxL est wt rank tev).1) ∧
    Event.smootherInit ∈ (mgSolve p minL maxL est wt rank tev).1 := by
  have hcs : coarseSelect p minL wt = Except.error MGError.notImplemented := by
    unfold coarseSelect
    rw [if_neg h1, if_neg h2, if_neg h3]
  have hun : mgSolve p minL maxL est wt rank tev =
      (mgEstTrace p minL maxL est ++ [Event.smootherInit],
       Except.error MGError.notImplemented) := by
    unfold mgSolve
    rw [if_neg (by simp [hs]), hcs]
  rw [hun]
  have hnot : ∀ e : Event,
      ((∃ l, e = Event.chebInit l ∨ e = Event.vecAlloc l ∨ e = Event.eigEstimate l) →
        False) →
      ((∃ v, e = Event.logMaxEv v) → False) →
      e ≠ Event.smootherInit →
      e ∉ mgEstTrace p minL maxL est ++ [Event.smootherInit] := by
    intro e ha hb hc hm
    rw [List.mem_append] at hm
    rcases hm with hm | hm
    · rcases mem_mgEstTrace p minL maxL est e hm with h | h
      · exact ha h
      · exact hb h
    · simp only [List.mem_singleton] at hm
      exact hc hm
  refine ⟨rfl, ?_, ?_, ?_, ?_, ?_⟩
  · intro s
    exact hnot _ (by rintro ⟨l, h | h | h⟩ <;> simp at h)
      (by rintro ⟨v, h⟩; simp at h) (by simp)
  · exact hnot _ (by rintro ⟨l, h | h | h⟩ <;> simp at h)
      (by rintro ⟨v, h⟩; simp at h) (by simp)
  · exact hnot _ (by rintro ⟨l, h | h | h⟩ <;> simp at h)
      (by rintro ⟨v, h⟩; simp at h) (by simp)
  · intro l
    constructor
    · exact hnot _ (by rintro ⟨l', h | h | h⟩ <;> simp at h)
        (by rintro ⟨v, h⟩; simp at h) (by simp)
    · exact hnot _ (by rintro ⟨l', h | h | h⟩ <;> simp at h)
        (by rintro ⟨v, h⟩; simp at h) (by simp)
  · simp

theorem mg_unknown_coarse_aborts_witness :
    (cfg "block_ssor" "chebyshev" false true).smoother.type = "chebyshev" ∧
    (cfg "block_ssor" "chebyshev" false true).coarse_solver.type ≠ "cg" ∧
    (cfg "block_ssor" "chebyshev" false true).coarse_solver.type ≠ "cg_with_chebyshev" ∧
    (cfg "block_ssor" "chebyshev" false true).coarse_solver.type ≠ "cg_with_amg" ∧
    ((mgSolve (cfg "block_ssor" "chebyshev" false true) 0 2 estEx true 0 []).2 =
        Except.error MGError.notImplemented ∧
      (∀ s : CoarseStrategy, Event.coarseConstructed s ∉
          (mgSolve (cfg "block_ssor" "chebyshev" false true) 0 2 estEx true 0 []).1) ∧
      Event.mgCycleRun ∉
        (mgSolve (cfg "block_ssor" "chebyshev" false true) 0 2 estEx true 0 []).1 ∧
      Event.tableWritten ∉
        (mgSolve (cfg "block_ssor" "chebyshev" false true) 0 2 estEx true 0 []).1 ∧
      (∀ l : ℕ, Event.diagExtract l ∉
          (mgSolve (cfg "block_ssor" "chebyshev" false true) 0 2 estEx true 0 []).1 ∧
        Event.amgInit l ∉
          (mgSolve (cfg "block_ssor" "chebyshev" false true) 0 2 estEx true 0 []).1) ∧
      Event.smootherInit ∈
        (mgSolve (cfg "block_ssor" "chebyshev" false true) 0 2 estEx true 0 []).1) :=
  ⟨rfl, by decide, by decide, by decide,
    mg_unknown_coarse_aborts (cfg "block_ssor" "chebyshev" false true) 0 2 estEx
      true 0 [] rfl (by decide) (by decide) (by decide)⟩

/-- C2 (counterexample): with an unrecognized coarse-solver type and
eigenvalue estimation enabled, the abort is preceded by eigenvalue
estimation (with its vector allocation and operator touches) and by
smoother initialization — the claim that no such work happens before the
abort is false. -/
theorem mg_unknown_coarse_aborts_cex :
    (mgSolve (cfg "block_jacobi" "chebyshev" true true) 0 1 estEx true 0 []).2 =
      Except.error MGError.notImplemented ∧
    Event.eigEstimate 1 ∈
      (mgSolve (cfg "block_jacobi" "chebyshev" true true) 0 1 estEx true 0 []).1 ∧
    Event.vecAlloc 1 ∈
      (mgSolve (cfg "block_jacobi" "chebyshev" true true) 0 1 estEx true 0 []).1 ∧
    Event.chebInit 1 ∈
      (mgSolve (cfg "block_jacobi" "chebyshev" true true) 0 1 estEx true 0 []).1 ∧
    Event.smootherInit ∈
      (mgSolve (cfg "block_jacobi" "chebyshev" true true) 0 1 estEx true 0 []).1 := by
  refine ⟨rfl, ?_, ?_, ?_, ?_⟩ <;> decide

/-- C9 (amended): when `min_level = 0` — as in every use of this solver with
a global hierarchy — each timer-callback access `all_mg_timers[level][i]`
fired at a hierarchy level `min_level ≤ level ≤ max_level` with stage index
`i < 7` is within bounds of the allocated
`(max_level - min_level + 1) × 7` array. -/
theorem mg_timer_access_in_bounds (minL maxL level i : ℕ) (hm : minL = 0)
    (h1 : minL ≤ level) (h2 : level ≤ maxL) (hi : i < 7) :
    timerAccessInBounds minL maxL level i := by
  subst hm
  unfold timerAccessInBounds allMgTimersInit
  rw [List.length_replicate]
  exact ⟨by omega, hi⟩

theorem mg_timer_access_in_bounds_witness :
    (0 : ℕ) = 0 ∧ (0 : ℕ) ≤ 2 ∧ (2 : ℕ) ≤ 3 ∧ (4 : ℕ) < 7 ∧
    timerAccessInBounds 0 3 2 4 :=
  ⟨rfl, by decide, by decide, by decide,
    mg_timer_access_in_bounds 0 3 2 4 rfl (by decide) (by decide) (by decide)⟩

/-- C9 (counterexample): with `min_level = 1`, `max_level = 2`, the signal
fired at hierarchy level 2 (which satisfies `min_level ≤ 2 ≤ max_level`)
accesses index 2 of an outer array of size `max_level - min_level + 1 = 2`:
out of bounds. -/
theorem mg_timer_access_cex :
    (1 ≤ 2 ∧ 2 ≤ 2 ∧ 0 < 7) ∧ ¬ timerAccessInBounds 1 2 2 0 := by
  decide

/-- C4: with estimation enabled, `mg_solve` runs the eigenvalue estimation
exactly once for each level in `min_level+1 .. max_level`, never for the
coarsest level `min_level`, and the coarsest level's eigenvalue slots still
hold the NaN sentinel at the end of the call. -/
theorem mg_eig_estimated_once_above_min (p : MGSolverParameters) (minL maxL : ℕ)
    (est : ℕ → ℚ × ℚ) (wt : Bool) (rank : ℕ) (tev : List TimerEvent)
    (hs : p.smoother.type = "chebyshev") (he : p.estimate_eigenvalues = true)
    (hml : minL ≤ maxL) :
    (∀ L, minL + 1 ≤ L → L ≤ maxL →
        (mgSolve p minL maxL est wt rank tev).1.count (Event.eigEstimate L) = 1) ∧
    (mgSolve p minL maxL est wt rank tev).1.count (Event.eigEstimate minL) = 0 ∧
    (∀ r, (mgSolve p minL maxL est wt rank tev).2 = Except.ok r →
        r.minEigenvalues.get? minL = some none ∧
        r.maxEigenvalues.get? minL = some none) := by
  refine ⟨?_, ?_, ?_⟩
  · intro L hL1 hL2
    rw [mgSolve_count_eigEstimate p minL maxL est wt rank tev hs L, he]
    rw [if_pos rfl, if_pos ⟨hL1, hL2⟩]
  · rw [mgSolve_count_eigEstimate p minL maxL est wt rank tev hs minL, he]
    rw [if_pos rfl, if_neg (by omega)]
  · intro r hok
    obtain ⟨_, hmin, hmax, _⟩ := mgSolve_snd_ok p minL maxL est wt rank tev r hok
    rw [hmin, hmax]
    unfold mgMinEv mgMaxEv
    rw [he]
    constructor <;>
      · rw [if_pos rfl, evWriteLoop_get? _ _ _ _ hml, if_neg (by omega)]

theorem mg_eig_estimated_once_above_min_witness :
    (cfg "cg" "chebyshev" true true).smoother.type = "chebyshev" ∧
    (cfg "cg" "chebyshev" true true).estimate_eigenvalues = true ∧
    (0 : ℕ) ≤ 2 ∧
    ((∀ L, 0 + 1 ≤ L → L ≤ 2 →
        (mgSolve (cfg "cg" "chebyshev" true true) 0 2 estEx true 0 []).1.count
          (Event.eigEstimate L) = 1) ∧
      (mgSolve (cfg "cg" "chebyshev" true true) 0 2 estEx true 0 []).1.count
        (Event.eigEstimate 0) = 0 ∧
      (∀ r, (mgSolve (cfg "cg" "chebyshev" true true) 0 2 estEx true 0 []).2 =
          Except.ok r →
        r.minEigenvalues.get? 0 = some none ∧
        r.maxEigenvalues.get? 0 = some none)) :=
  ⟨rfl, rfl, by decide,
    mg_eig_estimated_once_above_min (cfg "cg" "chebyshev" true true) 0 2 estEx
      true 0 [] rfl rfl (by decide)⟩

/-- C8: within one solve, every per-level timer accumulator starts at zero
(value-initialized storage); a callback firing touches only its own
(level, stage) cell; every stage-stop firing adds exactly the non-negative
elapsed duration (in seconds) to its accumulator; and accumulators are
monotonically non-decreasing along any time-ordered sequence of callback
firings (any prefix of the solve's firings has accumulators bounded by the
final ones). -/
theorem mg_timers_zero_init_and_monotone (pre post : List TimerEvent)
    (hp : (pre ++ post).Pairwise (fun a b => a.now ≤ b.now))
    (h0 : ∀ e ∈ pre ++ post, 0 ≤ e.now) :
    (∀ (l : ℕ) (i : Fin 7), initTimers l i = (0, 0)) ∧
    (∀ (s : TimerState) (e : TimerEvent) (l : ℕ) (i : Fin 7),
        ¬(l = e.level ∧ i = e.i) → mgTimerStep s e l i = s l i) ∧
    (∀ (s : TimerState) (e : TimerEvent), e.flag = false →
        (s e.level e.i).2 ≤ e.now →
        (mgTimerStep s e e.level e.i).1 =
          (s e.level e.i).1 + (e.now - (s e.level e.i).2) / 1000000000 ∧
        (s e.level e.i).1 ≤ (mgTimerStep s e e.level e.i).1) ∧
    (∀ (l : ℕ) (i : Fin 7),
        (runTimers initTimers pre l i).1 ≤
          (runTimers initTimers (pre ++ post) l i).1) := by
  refine ⟨fun _ _ => rfl, ?_, ?_, ?_⟩
  · intro s e l i hne
    unfold mgTimerStep
    rw [if_neg hne]
  · intro s e hf hle
    have hnn : (0 : ℚ) ≤ (e.now - (s e.level e.i).2) / 1000000000 :=
      div_nonneg (by linarith) (by norm_num)
    have heq : (mgTimerStep s e e.level e.i).1 =
        (s e.level e.i).1 + (e.now - (s e.level e.i).2) / 1000000000 := by
      simp [mgTimerStep, hf]
    exact ⟨heq, by rw [heq]; linarith⟩
  · intro l i
    have hsplit : runTimers initTimers (pre ++ post) =
        runTimers (runTimers initTimers pre) post := by
      unfold runTimers
      rw [List.foldl_append]
    rw [hsplit]
    have hpp := List.pairwise_append.mp hp
    apply runTimers_acc_mono
    · intro e hepost
      apply runTimers_startsLE
      · intro l' i'
        exact h0 e (List.mem_append.mpr (Or.inr hepost))
      · intro e' hepre
        exact hpp.2.2 e' hepre e hepost
    · exact hpp.2.1

theorem mg_timers_zero_init_and_monotone_witness :
    ([⟨0, true, 1, 2⟩] ++ [⟨0, false, 1, 5⟩] :
        List TimerEvent).Pairwise (fun a b => a.now ≤ b.now) ∧
    (∀ e ∈ ([⟨0, true, 1, 2⟩] ++ [⟨0, false, 1, 5⟩] : List TimerEvent),
        (0 : ℚ) ≤ e.now) ∧
    ((∀ (l : ℕ) (i : Fin 7), initTimers l i = (0, 0)) ∧
      (∀ (s : TimerState) (e : TimerEvent) (l : ℕ) (i : Fin 7),
          ¬(l = e.level ∧ i = e.i) → mgTimerStep s e l i = s l i) ∧
      (∀ (s : TimerState) (e : TimerEvent), e.flag = false →
          (s e.level e.i).2 ≤ e.now →
          (mgTimerStep s e e.level e.i).1 =
            (s e.level e.i).1 + (e.now - (s e.level e.i).2) / 1000000000 ∧
          (s e.level e.i).1 ≤ (mgTimerStep s e e.level e.i).1) ∧
      (∀ (l : ℕ) (i : Fin 7),
          (runTimers initTimers [⟨0, true, 1, 2⟩] l i).1 ≤
            (runTimers initTimers
              ([⟨0, true, 1, 2⟩] ++ [⟨0, false, 1, 5⟩]) l i).1)) :=
  ⟨by decide, by decide,
    mg_timers_zero_init_and_monotone [⟨0, true, 1, 2⟩] [⟨0, false, 1, 5⟩]
      (by decide) (by decide)⟩

/-- C5: for every level whose eigenvalue estimation completed, the smoother
configuration passed to `mg_smoother.initialize` has `eig_cg_n_iterations`
equal to zero, `max_eigenvalue` equal to 1.1 times the computed maximum
estimate, and otherwise carries the configured smoothing range, degree and
that level's preconditioner; the production smoother is initialized with
exactly this data. -/
theorem mg_smoother_config_after_estimation (p : MGSolverParameters)
    (minL maxL : ℕ) (est : ℕ → ℚ × ℚ) (wt : Bool) (rank : ℕ)
    (tev : List TimerEvent) (r : MGResult)
    (he : p.estimate_eigenvalues = true)
    (hok : (mgSolve p minL maxL est wt rank tev).2 = Except.ok r) :
    Event.smootherInit ∈ (mgSolve p minL maxL est wt rank tev).1 ∧
    ∀ L, minL + 1 ≤ L → L ≤ maxL →
      (r.smootherData L).eig_cg_n_iterations = 0 ∧
      (r.smootherData L).max_eigenvalue = some ((est L).2 * (11 / 10)) ∧
      (r.smootherData L).smoothing_range = p.smoother.smoothing_range ∧
      (r.smootherData L).degree = p.smoother.degree ∧
      (r.smootherData L).preconditioner = some L := by
  obtain ⟨hs, _, _, _, hsd, _⟩ := mgSolve_snd_ok p minL maxL est wt rank tev r hok
  constructor
  · obtain ⟨cevs, s, _, htr⟩ := mgSolve_ok_trace p minL maxL est wt rank tev r hok
    rw [htr]
    simp
  · intro L h1 h2
    rw [hsd]
    unfold mgSmootherData
    rw [he, if_pos rfl, smootherDataAfterEst_apply, if_pos ⟨h1, h2⟩]
    exact ⟨rfl, rfl, rfl, rfl, rfl⟩

theorem mg_smoother_config_after_estimation_witness :
    (cfg "cg" "chebyshev" true false).estimate_eigenvalues = true ∧
    (mgSolve (cfg "cg" "chebyshev" true false) 0 2 estEx true 0 []).2 =
      Except.ok (getOk (mgSolve (cfg "cg" "chebyshev" true false) 0 2 estEx true 0 []).2) ∧
    (Event.smootherInit ∈
        (mgSolve (cfg "cg" "chebyshev" true false) 0 2 estEx true 0 []).1 ∧
      ∀ L, 0 + 1 ≤ L → L ≤ 2 →
        ((getOk (mgSolve (cfg "cg" "chebyshev" true false) 0 2 estEx true 0 []).2).smootherData
            L).eig_cg_n_iterations = 0 ∧
        ((getOk (mgSolve (cfg "cg" "chebyshev" true false) 0 2 estEx true 0 []).2).smootherData
            L).max_eigenvalue = some ((estEx L).2 * (11 / 10)) ∧
        ((getOk (mgSolve (cfg "cg" "chebyshev" true false) 0 2 estEx true 0 []).2).smootherData
            L).smoothing_range = (cfg "cg" "chebyshev" true false).smoother.smoothing_range ∧
        ((getOk (mgSolve (cfg "cg" "chebyshev" true false) 0 2 estEx true 0 []).2).smootherData
            L).degree = (cfg "cg" "chebyshev" true false).smoother.degree ∧
        ((getOk (mgSolve (cfg "cg" "chebyshev" true false) 0 2 estEx true 0 []).2).smootherData
            L).preconditioner = some L) :=
  ⟨rfl, rfl,
    mg_smoother_config_after_estimation (cfg "cg" "chebyshev" true false) 0 2
      estEx true 0 []
      (getOk (mgSolve (cfg "cg" "chebyshev" true false) 0 2 estEx true 0 []).2)
      rfl rfl⟩

/-- C10: the per-level diagnostics table exists (and the file write event
fires) exactly when `log_levels` is true and the calling process is rank 0;
with `log_levels` false no timer callback is connected, the timers stay at
their zero initialization for the whole solve, and no table is produced
even if eigenvalue estimation ran. -/
theorem mg_diagnostics_gated (p : MGSolverParameters) (minL maxL : ℕ)
    (est : ℕ → ℚ × ℚ) (wt : Bool) (rank : ℕ) (tev : List TimerEvent)
    (r : MGResult)
    (hok : (mgSolve p minL maxL est wt rank tev).2 = Except.ok r) :
    (r.table.isSome = true ↔ (p.log_levels = true ∧ rank = 0)) ∧
    (Event.tableWritten ∈ (mgSolve p minL maxL est wt rank tev).1 ↔
      (p.log_levels = true ∧ rank = 0)) ∧
    (p.log_levels = false →
      r.timersConnected = false ∧ r.timersFinal = initTimers ∧ r.table = none) := by
  obtain ⟨hs, _, _, _, _, hconn, htf, htable⟩ :=
    mgSolve_snd_ok p minL maxL est wt rank tev r hok
  obtain ⟨cevs, strat, hcs, htr⟩ := mgSolve_ok_trace p minL maxL est wt rank tev r hok
  refine ⟨?_, ?_, ?_⟩
  · rw [htable]
    by_cases hc : p.log_levels = true ∧ rank = 0
    · rw [if_pos hc]
      simp [hc]
    · rw [if_neg hc]
      simp [hc]
  · rw [htr]
    by_cases hc : p.log_levels = true ∧ rank = 0
    · rw [if_pos hc]
      simp [hc]
    · rw [if_neg hc]
      simp only [hc, iff_false, List.append_nil]
      intro hmem
      rw [List.mem_append] at hmem
      rcases hmem with hmem | hmem
      · rw [List.mem_append] at hmem
        rcases hmem with hmem | hmem
        · rw [List.mem_append] at hmem
          rcases hmem with hmem | hmem
          · rcases mem_mgEstTrace p minL maxL est _ hmem with ⟨l, h | h | h⟩ | ⟨v, h⟩ <;>
              simp at h
          · simp at hmem
        · rcases coarseSelect_ok_events p minL wt cevs strat hcs with h | h | h <;>
            · subst h
              simp at hmem
      · simp at hmem
  · intro hl
    rw [hconn, htf, htable, hl]
    refine ⟨rfl, by rw [if_neg (by simp)], by rw [if_neg (by simp)]⟩

theorem mg_diagnostics_gated_witness :
    (mgSolve (cfg "cg" "chebyshev" true false) 1 3 estEx true 5 []).2 =
      Except.ok (getOk (mgSolve (cfg "cg" "chebyshev" true false) 1 3 estEx true 5 []).2) ∧
    (((getOk (mgSolve (cfg "cg" "chebyshev" true false) 1 3 estEx true 5 []).2).table.isSome =
          true ↔
        ((cfg "cg" "chebyshev" true false).log_levels = true ∧ (5 : ℕ) = 0)) ∧
      (Event.tableWritten ∈
          (mgSolve (cfg "cg" "chebyshev" true false) 1 3 estEx true 5 []).1 ↔
        ((cfg "cg" "chebyshev" true false).log_levels = true ∧ (5 : ℕ) = 0)) ∧
      ((cfg "cg" "chebyshev" true false).log_levels = false →
        (getOk (mgSolve (cfg "cg" "chebyshev" true false) 1 3 estEx true 5 []).2).timersConnected =
            false ∧
          (getOk (mgSolve (cfg "cg" "chebyshev" true false) 1 3 estEx true 5 []).2).timersFinal =
            initTimers ∧
          (getOk (mgSolve (cfg "cg" "chebyshev" true false) 1 3 estEx true 5 []).2).table =
            none)) :=
  ⟨rfl,
    mg_diagnostics_gated (cfg "cg" "chebyshev" true false) 1 3 estEx true 5 []
      (getOk (mgSolve (cfg "cg" "chebyshev" true false) 1 3 estEx true 5 []).2) rfl⟩

/-- On a non-empty all-ordinary range, `maxElement` folds with `qmax`. -/
theorem maxElement_some_cons (k : ℚ) (ks : List ℚ) :
    maxElement (some k :: ks.map some) = some (ks.foldl qmax k) :=
  foldl_fpmax_map_some k ks

/-- C3 (amended): when `min_level = 0` and estimation is enabled, the value
`mg_solve` logs and records under `"max_ev"` is an ordinary number equal to
the maximum of the per-level maximum-eigenvalue estimates over the
estimated levels `min_level+1 .. max_level`.  (For `min_level ≥ 1` the
skipped-first-element `max_element` starts at a NaN slot and the logged
value degenerates to NaN — see the counterexample.) -/
theorem mg_logged_max_ev_is_max (p : MGSolverParameters) (maxL : ℕ)
    (est : ℕ → ℚ × ℚ) (wt : Bool) (rank : ℕ) (tev : List TimerEvent)
    (r : MGResult)
    (he : p.estimate_eigenvalues = true) (hx : 1 ≤ maxL)
    (hok : (mgSolve p 0 maxL est wt rank tev).2 = Except.ok r) :
    ∃ v : ℚ, r.loggedMaxEv = some (some v) ∧
      (∀ L, 0 + 1 ≤ L → L ≤ maxL → (est L).2 ≤ v) ∧
      (∃ L₀, 0 + 1 ≤ L₀ ∧ L₀ ≤ maxL ∧ (est L₀).2 = v) := by
  obtain ⟨_, _, _, hlog, _⟩ := mgSolve_snd_ok p 0 maxL est wt rank tev r hok
  rw [hlog]
  unfold mgLoggedMaxEv
  rw [he, if_pos rfl]
  have hm : mgMaxEv p 0 maxL est =
      none :: (List.range' 1 maxL).map (fun k => some ((est k).2)) := by
    unfold mgMaxEv
    rw [he, if_pos rfl]
    exact evWriteLoop_zero_eq _ _
  rw [hm]
  obtain ⟨m, rfl⟩ : ∃ m, maxL = m + 1 := ⟨maxL - 1, by omega⟩
  rw [List.range'_succ]
  simp only [List.map_cons, List.drop_succ_cons, List.drop_zero]
  have hmm : (List.range' 2 m).map (fun k => some ((est k).2)) =
      ((List.range' 2 m).map (fun k => (est k).2)).map some := by
    rw [List.map_map]
    rfl
  rw [hmm, maxElement_some_cons]
  refine ⟨((List.range' 2 m).map (fun k => (est k).2)).foldl qmax ((est 1).2),
    rfl, ?_, ?_⟩
  · intro L h1 h2
    by_cases hL1 : L = 1
    · subst hL1
      exact le_foldl_qmax _ _
    · have hLmem : L ∈ List.range' 2 m := List.mem_range'_1.mpr ⟨by omega, by omega⟩
      exact mem_le_foldl_qmax _ _ _ (List.mem_map_of_mem _ hLmem)
  · rcases foldl_qmax_mem ((est 1).2) ((List.range' 2 m).map fun k => (est k).2)
      with h | h
    · exact ⟨1, by omega, by omega, h.symm⟩
    · obtain ⟨L₀, hLmem, hLeq⟩ := List.mem_map.mp h
      have hb := List.mem_range'_1.mp hLmem
      exact ⟨L₀, by omega, by omega, hLeq⟩

theorem mg_logged_max_ev_is_max_witness :
    (cfg "cg" "chebyshev" true true).estimate_eigenvalues = true ∧
    (1 : ℕ) ≤ 2 ∧
    (mgSolve (cfg "cg" "chebyshev" true true) 0 2 estEx true 0 []).2 =
      Except.ok (getOk (mgSolve (cfg "cg" "chebyshev" true true) 0 2 estEx true 0 []).2) ∧
    (∃ v : ℚ,
      (getOk (mgSolve (cfg "cg" "chebyshev" true true) 0 2 estEx true 0 []).2).loggedMaxEv =
        some (some v) ∧
      (∀ L, 0 + 1 ≤ L → L ≤ 2 → (estEx L).2 ≤ v) ∧
      (∃ L₀, 0 + 1 ≤ L₀ ∧ L₀ ≤ 2 ∧ (estEx L₀).2 = v)) :=
  ⟨rfl, by decide, rfl,
    mg_logged_max_ev_is_max (cfg "cg" "chebyshev" true true) 2 estEx true 0 []
      (getOk (mgSolve (cfg "cg" "chebyshev" true true) 0 2 estEx true 0 []).2)
      rfl (by decide) rfl⟩

/-- C3 (counterexample): with `min_level = 1`, `max_level = 2` the only
estimated level has maximum estimate 5, yet the logged `"max_ev"` value is
the NaN sentinel, not 5: `max_element` starts at the NaN in slot 1 and NaN
never compares less-than. -/
theorem mg_logged_max_ev_cex :
    ((mgSolve (cfg "cg" "chebyshev" true true) 1 2 estEx true 0 []).2.toOption.map
        (fun r => r.loggedMaxEv) = some (some none)) ∧
    (estEx 2).2 = 5 ∧
    (some (none : EDouble) : Option EDouble) ≠ some (some (5 : ℚ)) := by
  exact ⟨rfl, rfl, by decide⟩

/-- C1 (amended): when `min_level = 0` and both `log_levels` and
`estimate_eigenvalues` are enabled, the diagnostics table has one row per
hierarchy level, and the row for level `L` carries level `L`'s seven timer
accumulators and exactly the min/max eigenvalue estimates computed for
level `L`, with the NaN sentinel on the non-estimated coarsest row.  (For
`min_level > 0` the rows pair level `min_level + r`'s label with the timers
and estimates of level `r` — see the counterexample.) -/
theorem mg_table_per_level (p : MGSolverParameters) (maxL : ℕ)
    (est : ℕ → ℚ × ℚ) (wt : Bool) (rank : ℕ) (tev : List TimerEvent)
    (r : MGResult) (tbl : List TableRow)
    (he : p.estimate_eigenvalues = true) (hl : p.log_levels = true)
    (hr : rank = 0)
    (hok : (mgSolve p 0 maxL est wt rank tev).2 = Except.ok r)
    (htbl : r.table = some tbl) :
    tbl.length = maxL - 0 + 1 ∧
    ∀ L, L ≤ maxL →
      tbl.get? L = some
        { level := L
          pre_smoother_step := (r.timersFinal L 0).1
          residual_step := (r.timersFinal L 1).1
          restriction := (r.timersFinal L 2).1
          coarse_solve := (r.timersFinal L 3).1
          prolongation := (r.timersFinal L 4).1
          edge_prolongation := (r.timersFinal L 5).1
          post_smoother_step := (r.timersFinal L 6).1
          min_eigenvalue := some (if 0 + 1 ≤ L then some ((est L).1) else none)
          max_eigenvalue := some (if 0 + 1 ≤ L then some ((est L).2) else none) } := by
  obtain ⟨_, _, _, _, _, _, htf, htable⟩ :=
    mgSolve_snd_ok p 0 maxL est wt rank tev r hok
  rw [htable, if_pos ⟨hl, hr⟩, Option.some.injEq] at htbl
  subst htbl
  constructor
  · simp [buildTable]
  · intro L hL2
    have hLlt : L < maxL - 0 + 1 := by omega
    have hminD : (mgMinEv p 0 maxL est).getD L none =
        (if 0 + 1 ≤ L then some ((est L).1) else none) := by
      unfold mgMinEv
      rw [he, if_pos rfl, List.getD_eq_get?, evWriteLoop_get? _ 0 maxL L hL2]
      rw [Option.getD_some]
      by_cases h1 : 0 + 1 ≤ L
      · rw [if_pos ⟨h1, hL2⟩, if_pos h1]
      · rw [if_neg (by omega), if_neg h1]
    have hmaxD : (mgMaxEv p 0 maxL est).getD L none =
        (if 0 + 1 ≤ L then some ((est L).2) else none) := by
      unfold mgMaxEv
      rw [he, if_pos rfl, List.getD_eq_get?, evWriteLoop_get? _ 0 maxL L hL2]
      rw [Option.getD_some]
      by_cases h1 : 0 + 1 ≤ L
      · rw [if_pos ⟨h1, hL2⟩, if_pos h1]
      · rw [if_neg (by omega), if_neg h1]
    unfold buildTable
    rw [List.get?_map, List.get?_range hLlt, Option.map_some']
    rw [htf, he]
    simp
    constructor
    · rw [← List.getD_eq_getElem?_getD, hminD]
    · rw [← List.getD_eq_getElem?_getD, hmaxD]

theorem mg_table_per_level_witness :
    (cfg "cg" "chebyshev" true true).estimate_eigenvalues = true ∧
    (cfg "cg" "chebyshev" true true).log_levels = true ∧
    (0 : ℕ) = 0 ∧
    (mgSolve (cfg "cg" "chebyshev" true true) 0 2 estEx true 0 []).2 =
      Except.ok (getOk (mgSolve (cfg "cg" "chebyshev" true true) 0 2 estEx true 0 []).2) ∧
    (getOk (mgSolve (cfg "cg" "chebyshev" true true) 0 2 estEx true 0 []).2).table =
      some ((getOk (mgSolve (cfg "cg" "chebyshev" true true) 0 2 estEx true 0 []).2).table.getD
        []) ∧
    (((getOk (mgSolve (cfg "cg" "chebyshev" true true) 0 2 estEx true 0 []).2).table.getD
          []).length = 2 - 0 + 1 ∧
      ∀ L, L ≤ 2 →
        ((getOk (mgSolve (cfg "cg" "chebyshev" true true) 0 2 estEx true 0 []).2).table.getD
            []).get? L = some
          { level := L
            pre_smoother_step :=
              ((getOk (mgSolve (cfg "cg" "chebyshev" true true) 0 2 estEx true 0 []).2).timersFinal
                L 0).1
            residual_step :=
              ((getOk (mgSolve (cfg "cg" "chebyshev" true true) 0 2 estEx true 0 []).2).timersFinal
                L 1).1
            restriction :=
              ((getOk (mgSolve (cfg "cg" "chebyshev" true true) 0 2 estEx true 0 []).2).timersFinal
                L 2).1
            coarse_solve :=
              ((getOk (mgSolve (cfg "cg" "chebyshev" true true) 0 2 estEx true 0 []).2).timersFinal
                L 3).1
            prolongation :=
              ((getOk (mgSolve (cfg "cg" "chebyshev" true true) 0 2 estEx true 0 []).2).timersFinal
                L 4).1
            edge_prolongation :=
              ((getOk (mgSolve (cfg "cg" "chebyshev" true true) 0 2 estEx true 0 []).2).timersFinal
                L 5).1
            post_smoother_step :=
              ((getOk (mgSolve (cfg "cg" "chebyshev" true true) 0 2 estEx true 0 []).2).timersFinal
                L 6).1
            min_eigenvalue := some (if 0 + 1 ≤ L then some ((estEx L).1) else none)
            max_eigenvalue := some (if 0 + 1 ≤ L then some ((estEx L).2) else none) }) :=
  ⟨rfl, rfl, rfl, rfl, rfl,
    mg_table_per_level (cfg "cg" "chebyshev" true true) 2 estEx true 0 []
      (getOk (mgSolve (cfg "cg" "chebyshev" true true) 0 2 estEx true 0 []).2)
      ((getOk (mgSolve (cfg "cg" "chebyshev" true true) 0 2 estEx true 0 []).2).table.getD [])
      rfl rfl rfl rfl rfl⟩

/-- C1 (counterexample): with `min_level = 1`, `max_level = 2`, logging and
estimation enabled, the estimation computed max estimate 5 for hierarchy
level 2, but both table rows (covering levels 1 and 2) carry the NaN
sentinel in their eigenvalue columns: the row corresponding to level 2 does
not contain the estimates computed for level 2. -/
theorem mg_table_per_level_cex :
    ((mgSolve (cfg "cg" "chebyshev" true true) 1 2 estEx true 0 []).2.toOption.map
        (fun r => (r.table.getD []).map
          (fun row => (row.level, row.min_eigenvalue, row.max_eigenvalue))) =
      some [(0, some none, some none), (1, some none, some none)]) ∧
    ((mgSolve (cfg "cg" "chebyshev" true true) 1 2 estEx true 0 []).2.toOption.map
        (fun r => r.maxEigenvalues.getD 2 none) = some (some 5)) ∧
    ((2 : ℕ) - 1 + 1 = 2) ∧
    (some (none : EDouble) : Option EDouble) ≠ some (some (5 : ℚ)) := by
  exact ⟨rfl, rfl, by decide, by decide⟩
